import Mathlib

/-!
# Verification of the Resonance discovery core

Shallow embedding of the queue store (`backend/discovery/shared/queue.py`),
the wishlist log (`backend/discovery/shared/wishlist.py`), the wishlist
reader and album match scorer (`backend/discovery/slskd_downloader.py`),
the review-API approval path (`backend/api/services/queue_manager.py`) and
the producer drain (`backend/discovery/lb_fetch.py`).

Strings are modelled as `List Char` so that every operation the Python code
performs (strip, prefix check, quote escaping, first-occurrence split,
case folding, substring search) is an executable structural function.
-/

namespace Resonance

/-- Python strings are modelled as lists of characters. -/
abbrev Str := List Char

/-! ## Queue data model (`shared/queue.py`)

A queue item is a JSON object; the queue code only ever inspects the
`"mbid"` key (`item.get("mbid")`, which yields `None` when absent), and the
wishlist drain additionally reads `"artist"`, `"album"` and `"title"`.
All other keys are carried opaquely in `extra`.  `album = none` models the
absence of the `"album"` key (`"album" in item` is false). -/
structure QItem where
  mbid : Option Str
  artist : Str
  album : Option Str
  title : Str
  extra : Str
deriving DecidableEq, Repr

/-- The persisted queue object: `{"pending": [...], "approved": [...],
"rejected": [...]}` where `rejected` holds bare mbid strings. -/
structure Queue where
  pending : List QItem
  approved : List QItem
  rejected : List Str
deriving DecidableEq, Repr

/-- `DEFAULT_QUEUE`: the all-empty queue. -/
def emptyQueue : Queue := { pending := [], approved := [], rejected := [] }

/-- The test `item.get("mbid") in mbid_set` from `approve_items` /
`reject_items`: an absent mbid (`None`) never matches. -/
def mbidMatches (mbids : List Str) (i : QItem) : Bool :=
  match i.mbid with
  | some m => decide (m ∈ mbids)
  | none => false

/-- `add_pending`: appends the entry to `queue["pending"]`, with no
duplicate check. -/
def add_pending (e : QItem) (q : Queue) : Queue :=
  { q with pending := q.pending ++ [e] }

/-- The loop of `approve_items`: walking `pending` left to right, matching
items are appended to the moved list, the rest to the new pending list
(both in original order, as the Python `append` loop produces). -/
def approveSplit (mbids : List Str) : List QItem → List QItem × List QItem
  | [] => ([], [])
  | i :: rest =>
    let p := approveSplit mbids rest
    if mbidMatches mbids i then (p.1, i :: p.2) else (i :: p.1, p.2)

/-- `approve_items(mbids)`: moves every pending item whose mbid is in
`mbids` onto the end of `approved` (payload untouched) and returns the
number moved together with the written-back queue. -/
def approve_items (mbids : List Str) (q : Queue) : Nat × Queue :=
  let p := approveSplit mbids q.pending
  (p.2.length, { q with pending := p.1, approved := q.approved ++ p.2 })

/-- Insertion into a Python `set` materialised as a duplicate-free list:
a no-op when the key is present.  The Python set's iteration order is
unspecified; the model fixes first-insertion order, and every verified
property about `rejected` is a membership fact, which is order
independent. -/
def insertUniq (l : List Str) (s : Str) : List Str :=
  if s ∈ l then l else l ++ [s]

/-- `set(xs)` for a list of strings, keeping first occurrences. -/
def pySet (l : List Str) : List Str := l.foldl insertUniq []

/-- The loop of `reject_items`: matching pending items are dropped and
their mbid added to the rejected set, the rest keep their order; returns
(new pending, rejected set, count). -/
def rejectLoop (mbids : List Str) : List QItem → List Str → List QItem × List Str × Nat
  | [], rej => ([], rej, 0)
  | i :: rest, rej =>
    match i.mbid with
    | some m =>
      if decide (m ∈ mbids) then
        let r := rejectLoop mbids rest (insertUniq rej m)
        (r.1, r.2.1, r.2.2 + 1)
      else
        let r := rejectLoop mbids rest rej
        (i :: r.1, r.2.1, r.2.2)
    | none =>
      let r := rejectLoop mbids rest rej
      (i :: r.1, r.2.1, r.2.2)

/-- `reject_items(mbids)`: removes matching pending items, recording only
their mbids in the rejected set (`rejected = set(queue.get("rejected", []))`
then `list(rejected)`); returns the count and the written-back queue. -/
def reject_items (mbids : List Str) (q : Queue) : Nat × Queue :=
  let r := rejectLoop mbids q.pending (pySet q.rejected)
  (r.2.2, { q with pending := r.1, rejected := r.2.1 })

/-- `get_rejected_mbids`: `set(queue.get("rejected", []))`. -/
def get_rejected_mbids (q : Queue) : List Str := pySet q.rejected

/-- Mbids present in the pending collection. -/
def pendingMbids (q : Queue) : List Str := q.pending.filterMap (·.mbid)

/-- Mbids present in the approved collection. -/
def approvedMbids (q : Queue) : List Str := q.approved.filterMap (·.mbid)

/-- The spec §3 invariant: an mbid appears in at most one of
pending / approved. -/
def MbidInvariant (q : Queue) : Prop :=
  ∀ m ∈ pendingMbids q, m ∉ approvedMbids q

instance (q : Queue) : Decidable (MbidInvariant q) := by
  unfold MbidInvariant; infer_instance

/-- A mutation of the shared queue file, each performed inside its own
exclusive `locked_queue('w')` acquisition. -/
inductive QOp
  | add (e : QItem)
  | approve (mbids : List Str)
  | reject (mbids : List Str)
deriving DecidableEq, Repr

/-- Apply one lock-guarded queue operation (dropping the returned count). -/
def applyOp (q : Queue) : QOp → Queue
  | .add e => add_pending e q
  | .approve mbids => (approve_items mbids q).2
  | .reject mbids => (reject_items mbids q).2

/-- Run a sequence of queue operations starting from the default empty
queue. -/
def runOps (ops : List QOp) : Queue := ops.foldl applyOp emptyQueue

/-- Concrete queue item used in witnesses and counterexamples. -/
def itmA : QItem :=
  { mbid := some "m1".data, artist := "Artist".data,
    album := some "Album".data, title := [], extra := "x".data }

/-! ## Queue file loading (`locked_queue` / `load_queue`)

The on-disk file content is abstracted by its parse outcome: blank
content (`content.strip()` empty), content on which `json.loads` raises
`JSONDecodeError`, or a parsed object in which any of the three keys may
be missing.  `locked_queue` catches the decode error and falls back to
`DEFAULT_QUEUE`; being a total Lean function, the model can never raise. -/

/-- A parsed queue JSON object; `none` models a missing key, which
`locked_queue` replaces by `[]`. -/
structure RawQueue where
  pendingJ : Option (List QItem)
  approvedJ : Option (List QItem)
  rejectedJ : Option (List Str)
deriving DecidableEq, Repr

/-- Abstracted content of `pending_queue.json`. -/
inductive QueueFileContent
  | blank
  | invalid
  | valid (r : RawQueue)
deriving DecidableEq, Repr

/-- The `json.loads` call: raises (models as `Except.error`) exactly on
content that is not valid JSON. -/
def jsonParseQueue : QueueFileContent → Except Str RawQueue
  | .blank => .error "Expecting value".data
  | .invalid => .error "JSONDecodeError".data
  | .valid r => .ok r

/-- Key normalisation: `for key in DEFAULT_QUEUE: if key not in queue:
queue[key] = []`. -/
def ensureKeys (r : RawQueue) : Queue :=
  { pending := r.pendingJ.getD [], approved := r.approvedJ.getD [],
    rejected := r.rejectedJ.getD [] }

/-- The read path of `locked_queue`: blank content gives the default
queue; a `JSONDecodeError` is caught, logged and replaced by the default
queue; otherwise missing keys are filled in. -/
def locked_queue_read (c : QueueFileContent) : Queue :=
  if c = QueueFileContent.blank then emptyQueue
  else
    match jsonParseQueue c with
    | .error _ => emptyQueue
    | .ok r => ensureKeys r

/-- `load_queue`: read under a shared lock and return a copy. -/
def load_queue (c : QueueFileContent) : Queue :=
  let q := locked_queue_read c
  { pending := q.pending, approved := q.approved, rejected := q.rejected }

/-! ## Wishlist encoding (`shared/wishlist.py`) -/

/-- `_escape_quotes`: `text.replace('"', '\\"')`. -/
def escQ : Str → Str
  | [] => []
  | c :: rest => if c = '"' then '\\' :: '"' :: escQ rest else c :: escQ rest

/-- The artist/title separator `" - "`. -/
def sepDash : Str := [' ', '-', ' ']

/-- One encoded wishlist line (without the trailing newline): albums are
`a:"<artist> - <title>"`, tracks `"<artist> - <title>"`, with double
quotes escaped. -/
def wishlistLine (artist title : Str) (is_album : Bool) : Str :=
  (if is_album then ['a', ':'] else []) ++
    '"' :: (escQ artist ++ sepDash ++ escQ title ++ ['"'])

/-- `append_to_wishlist`: writes one encoded line plus newline to the end
of the wishlist file. -/
def append_to_wishlist (file : Str) (artist title : Str) (is_album : Bool) : Str :=
  file ++ wishlistLine artist title is_album ++ ['\n']

/-- `process_approved_to_wishlist`: for each approved item, an `"album"`
key selects album form, otherwise the `"title"` value is used as a track;
items with an empty artist or title are skipped with a warning.  Returns
the count written and the grown file. -/
def process_approved_to_wishlist : List QItem → Str → Nat × Str
  | [], file => (0, file)
  | i :: rest, file =>
    let td : Str × Bool :=
      match i.album with
      | some alb => (alb, true)
      | none => (i.title, false)
    if i.artist = [] ∨ td.1 = [] then process_approved_to_wishlist rest file
    else
      let r := process_approved_to_wishlist rest
        (file ++ wishlistLine i.artist td.1 td.2 ++ ['\n'])
      (r.1 + 1, r.2)

/-! ## Wishlist parsing (`slskd_downloader.parse_wishlist`) -/

/-- Python `str.strip()` on both ends. -/
def pstrip (s : Str) : Str :=
  ((s.dropWhile Char.isWhitespace).reverse.dropWhile Char.isWhitespace).reverse

/-- `line.replace('\\"', '"')`: left-to-right, non-overlapping. -/
def unescQ : Str → Str
  | [] => []
  | [c] => [c]
  | c1 :: c2 :: rest =>
    if c1 = '\\' ∧ c2 = '"' then '"' :: unescQ rest
    else c1 :: unescQ (c2 :: rest)

/-- `line.split(pat, 1)` guarded by `pat in line`: split at the first
occurrence of `pat`, or `none` when `pat` does not occur. -/
def splitOnce (pat : Str) : Str → Option (Str × Str)
  | [] => none
  | c :: rest =>
    if pat.isPrefixOf (c :: rest) then some ([], (c :: rest).drop pat.length)
    else
      match splitOnce pat rest with
      | some r => some (c :: r.1, r.2)
      | none => none

/-- Split a string at every occurrence of a character (the pieces do not
contain the separator). -/
def splitOnChar (sep : Char) : Str → List Str
  | [] => [[]]
  | c :: rest =>
    if c = sep then [] :: splitOnChar sep rest
    else
      match splitOnChar sep rest with
      | l :: ls => (c :: l) :: ls
      | [] => [[c]]

/-- File iteration `for line in f` followed by `line.strip()`: modelled by
splitting on newlines (a trailing empty piece is later skipped by the
blank-line check, matching Python). -/
def splitLines (s : Str) : List Str := splitOnChar '\n' s

/-- One parsed wishlist entry, as built by `parse_wishlist`; `raw` is the
value stored under the `'raw'` key. -/
structure WItem where
  artist : Str
  title : Str
  is_album : Bool
  raw : Str
deriving DecidableEq, Repr

/-- The album-prefix step of `parse_wishlist`: `if line.startswith('a:'):
is_album = True; line = line[2:]`. -/
def stripPrefixA (l : Str) : Bool × Str :=
  if ['a', ':'].isPrefixOf l then (true, l.drop 2) else (false, l)

/-- The quote-removal step of `parse_wishlist`: `if line.startswith('"')
and line.endswith('"'): line = line[1:-1]`. -/
def stripQuotes (l : Str) : Str :=
  if ['"'].isPrefixOf l && ['"'].isSuffixOf l then (l.drop 1).dropLast else l

/-- The per-line body of `parse_wishlist`: strip, skip blank lines, strip
an `a:` prefix, strip surrounding quotes, unescape, then split on the
first `" - "` (lines without the separator are dropped). -/
def parseWishlistLine (line0 : Str) : Option WItem :=
  let line1 := pstrip line0
  if line1 = [] then none
  else
    let pr := stripPrefixA line1
    let line4 := unescQ (stripQuotes pr.2)
    match splitOnce sepDash line4 with
    | some r =>
      some { artist := pstrip r.1, title := pstrip r.2, is_album := pr.1, raw := line4 }
    | none => none

/-- `parse_wishlist` over the whole file content. -/
def parse_wishlist (content : Str) : List WItem :=
  (splitLines content).filterMap parseWishlistLine

/-- The key under which `main` records a completed download in the
`downloaded` set: `key = item['raw']`. -/
def download_key (i : WItem) : Str := i.raw

/-! ## Review API approval and producer drain -/

/-- `QueueManager.approve`: snapshot the matching pending items, call
`approve_items`, and if anything moved, immediately write those items to
the wishlist. -/
def queue_manager_approve (mbids : List Str) (q : Queue) (file : Str) :
    Nat × Queue × Str :=
  let to_approve := q.pending.filter (mbidMatches mbids)
  let r := approve_items mbids q
  if 0 < r.1 then (r.1, r.2, (process_approved_to_wishlist to_approve file).2)
  else (r.1, r.2, file)

/-- `lb_fetch.process_approved_queue`: write every approved item to the
wishlist, then clear the approved collection. -/
def process_approved_queue (q : Queue) (file : Str) : Nat × Queue × Str :=
  if q.approved = [] then (0, q, file)
  else
    let r := process_approved_to_wishlist q.approved file
    (r.1, { q with approved := [] }, r.2)

/-! ## Album match scorer (`slskd_downloader.search_album`)

The pure scoring/selection part of `search_album`, acting on the peer
responses returned by the external search. -/

/-- One shared file in a peer response. -/
structure SFile where
  filename : Str
  size : Nat
deriving DecidableEq, Repr

/-- One peer response. -/
structure Response where
  username : Str
  files : List SFile
  uploadSpeed : Nat
  hasFreeUploadSlot : Bool
deriving DecidableEq, Repr

/-- The `best_match` record built by `search_album`. -/
structure MatchCand where
  username : Str
  directory : Str
  files : List SFile
  all_files : List SFile
  score : Nat
deriving DecidableEq, Repr

/-- Python `str.lower()` (per-character case folding). -/
def lowerStr (s : Str) : Str := s.map Char.toLower

/-- Python substring containment `pat in s`. -/
def isSubstr (pat : Str) : Str → Bool
  | [] => decide (pat = [])
  | c :: rest => pat.isPrefixOf (c :: rest) || isSubstr pat rest

/-- Python `sep.join(pieces)`. -/
def joinChar (sep : Char) : List Str → Str
  | [] => []
  | [s] => s
  | s :: rest => s ++ sep :: joinChar sep rest

/-- Directory of a file path: everything before the last separator,
preferring backslashes when the path contains any (`search_album`). -/
def dirOf (p : Str) : Str :=
  if '\\' ∈ p then joinChar '\\' ((splitOnChar '\\' p).dropLast)
  else joinChar '/' ((splitOnChar '/' p).dropLast)

/-- Append a file to its directory's bucket, creating the bucket at the
end on first sight (Python dict insertion order). -/
def insertGrouped (d : Str) (f : SFile) :
    List (Str × List SFile) → List (Str × List SFile)
  | [] => [(d, [f])]
  | g :: rest =>
    if g.1 = d then (g.1, g.2 ++ [f]) :: rest
    else g :: insertGrouped d f rest

/-- Group a response's files by directory. -/
def groupByDir (files : List SFile) : List (Str × List SFile) :=
  files.foldl (fun acc f => insertGrouped (dirOf f.filename) f acc) []

/-- Album-mode audio extension allow-list. -/
def audioExtsAlbum : List Str :=
  [".mp3".data, ".flac".data, ".m4a".data, ".ogg".data, ".wav".data]

/-- A file whose lower-cased name ends in an allowed audio extension. -/
def isAudioAlbum (f : SFile) : Bool :=
  audioExtsAlbum.any (fun e => e.isSuffixOf (lowerStr f.filename))

/-- A file whose lower-cased name ends in `.flac`. -/
def isFlacFile (f : SFile) : Bool := ".flac".data.isSuffixOf (lowerStr f.filename)

/-- The sequential score accumulation of `search_album` for one surviving
directory. -/
def scoreDir (artist album : Str) (resp : Response) (dirPath : Str)
    (audio : List SFile) : Nat :=
  let s1 := 0 + audio.length * 10
  let flac_count := (audio.filter isFlacFile).length
  let s2 := s1 + flac_count * 5
  let dir_lower := lowerStr dirPath
  let s3 := if isSubstr (lowerStr artist) dir_lower then s2 + 50 else s2
  let s4 := if isSubstr (lowerStr album) dir_lower then s3 + 50 else s3
  let s5 := if 1000000 < resp.uploadSpeed then s4 + 20 else s4
  if resp.hasFreeUploadSlot then s5 + 30 else s5

/-- The spec §4.4 scoring formula, written as one closed expression. -/
def specDirScore (audioCount flacCount : Nat)
    (artistIn titleIn fastUpload freeSlot : Bool) : Nat :=
  10 * audioCount + 5 * flacCount +
    (if artistIn then 50 else 0) + (if titleIn then 50 else 0) +
    (if fastUpload then 20 else 0) + (if freeSlot then 30 else 0)

/-- The surviving directories of one response, in evaluation order, with
their scores: directories with fewer than `minFiles` qualifying audio
files are discarded. -/
def dirCandidates (artist album : Str) (minFiles : Nat) (r : Response) :
    List (Str × List SFile) → List MatchCand
  | [] => []
  | g :: rest =>
    let audio := g.2.filter isAudioAlbum
    if minFiles ≤ audio.length then
      { username := r.username, directory := g.1, files := audio,
        all_files := g.2, score := scoreDir artist album r g.1 audio } ::
        dirCandidates artist album minFiles r rest
    else dirCandidates artist album minFiles r rest

/-- All surviving directories across all responses, in evaluation order
(responses with an empty file list are skipped). -/
def survivors (artist album : Str) (minFiles : Nat) : List Response → List MatchCand
  | [] => []
  | r :: rest =>
    (if r.files = [] then []
     else dirCandidates artist album minFiles r (groupByDir r.files)) ++
      survivors artist album minFiles rest

/-- The `best_match` / `best_score` update loop: a candidate replaces the
current best only when its score is strictly greater. -/
def pickLoop : Option MatchCand → Nat → List MatchCand → Option MatchCand × Nat
  | best, bs, [] => (best, bs)
  | best, bs, m :: rest =>
    if bs < m.score then pickLoop (some m) m.score rest
    else pickLoop best bs rest

/-- The selection performed by `search_album` (starting from
`best_match = None`, `best_score = 0`). -/
def search_album_pick (artist album : Str) (minFiles : Nat)
    (rs : List Response) : Option MatchCand :=
  (pickLoop none 0 (survivors artist album minFiles rs)).1

/-! ## Concrete fixtures -/

/-- Response with five FLAC files in a directory naming artist and album. -/
def radResp1 : Response :=
  { username := "alice".data,
    files := [⟨"Music\\Radiohead OK Computer\\01.flac".data, 1⟩,
              ⟨"Music\\Radiohead OK Computer\\02.flac".data, 1⟩,
              ⟨"Music\\Radiohead OK Computer\\03.flac".data, 1⟩,
              ⟨"Music\\Radiohead OK Computer\\04.flac".data, 1⟩,
              ⟨"Music\\Radiohead OK Computer\\05.flac".data, 1⟩],
    uploadSpeed := 0, hasFreeUploadSlot := false }

/-- Response with three MP3 files in an unrelated directory. -/
def radResp2 : Response :=
  { username := "bob".data,
    files := [⟨"stuff/dir/x1.mp3".data, 1⟩,
              ⟨"stuff/dir/x2.mp3".data, 1⟩,
              ⟨"stuff/dir/x3.mp3".data, 1⟩],
    uploadSpeed := 0, hasFreeUploadSlot := false }

/-- Tie fixture: one MP3 in directory `d1`. -/
def tieResp1 : Response :=
  { username := "u1".data, files := [⟨"d1/a.mp3".data, 1⟩],
    uploadSpeed := 0, hasFreeUploadSlot := false }

/-- Tie fixture: one MP3 in directory `d2`. -/
def tieResp2 : Response :=
  { username := "u2".data, files := [⟨"d2/b.mp3".data, 1⟩],
    uploadSpeed := 0, hasFreeUploadSlot := false }

/-- A response whose only directory has zero qualifying audio files. -/
def zeroResp : Response :=
  { username := "u0".data, files := [⟨"d/x.txt".data, 1⟩],
    uploadSpeed := 0, hasFreeUploadSlot := false }

/-- The surviving candidate of `tieResp1`. -/
def tieCand1 : MatchCand :=
  { username := "u1".data, directory := "d1".data,
    files := [⟨"d1/a.mp3".data, 1⟩], all_files := [⟨"d1/a.mp3".data, 1⟩],
    score := 10 }

/-- The surviving candidate of `tieResp2`. -/
def tieCand2 : MatchCand :=
  { username := "u2".data, directory := "d2".data,
    files := [⟨"d2/b.mp3".data, 1⟩], all_files := [⟨"d2/b.mp3".data, 1⟩],
    score := 10 }

/-- The best match for the Radiohead / OK Computer instance. -/
def radBest : MatchCand :=
  { username := "alice".data, directory := "Music\\Radiohead OK Computer".data,
    files := radResp1.files, all_files := radResp1.files, score := 175 }

/-- The surviving zero-score candidate of `zeroResp` at `minFiles = 0`. -/
def zeroCand : MatchCand :=
  { username := "u0".data, directory := "d".data, files := [],
    all_files := [⟨"d/x.txt".data, 1⟩], score := 0 }

/-! ## Basic lemmas about the queue operations -/

theorem mbidMatches_eq_true {mbids : List Str} {i : QItem} :
    mbidMatches mbids i = true ↔ ∃ m, i.mbid = some m ∧ m ∈ mbids := by
  unfold mbidMatches
  cases h : i.mbid with
  | none => simp
  | some m =>
    simp only [decide_eq_true_eq]
    constructor
    · intro hm; exact ⟨m, rfl, hm⟩
    · rintro ⟨m2, hm2, hmem⟩; cases hm2; exact hmem

theorem approveSplit_nil_of_no_match {mbids : List Str} :
    ∀ {l : List QItem}, (∀ j ∈ l, mbidMatches mbids j = false) →
    approveSplit mbids l = (l, []) := by
  intro l
  induction l with
  | nil => intro _; rfl
  | cons i rest ih =>
    intro h
    have hi : mbidMatches mbids i = false := h i (by simp)
    have hr := ih (fun j hj => h j (by simp [hj]))
    simp [approveSplit, hr, hi]

theorem approveSplit_append (mbids : List Str) (l1 l2 : List QItem) :
    approveSplit mbids (l1 ++ l2) =
      ((approveSplit mbids l1).1 ++ (approveSplit mbids l2).1,
       (approveSplit mbids l1).2 ++ (approveSplit mbids l2).2) := by
  induction l1 with
  | nil => simp [approveSplit]
  | cons i rest ih =>
    simp only [List.cons_append, approveSplit]
    by_cases h : mbidMatches mbids i <;> simp [h, ih]

theorem approveSplit_mem_left {mbids : List Str} :
    ∀ {l : List QItem} {i : QItem}, i ∈ (approveSplit mbids l).1 →
      i ∈ l ∧ mbidMatches mbids i = false := by
  intro l
  induction l with
  | nil => intro i h; simp [approveSplit] at h
  | cons j rest ih =>
    intro i h
    simp only [approveSplit] at h
    by_cases hj : mbidMatches mbids j
    · simp only [hj, if_pos rfl] at h
      obtain ⟨h1, h2⟩ := ih h
      exact ⟨by simp [h1], h2⟩
    · simp only [hj] at h
      rcases List.mem_cons.mp h with rfl | h2
      · exact ⟨by simp, by simpa using hj⟩
      · obtain ⟨h1, h2⟩ := ih h2
        exact ⟨by simp [h1], h2⟩

theorem approveSplit_mem_right {mbids : List Str} :
    ∀ {l : List QItem} {i : QItem}, i ∈ (approveSplit mbids l).2 →
      i ∈ l ∧ mbidMatches mbids i = true := by
  intro l
  induction l with
  | nil => intro i h; simp [approveSplit] at h
  | cons j rest ih =>
    intro i h
    simp only [approveSplit] at h
    by_cases hj : mbidMatches mbids j
    · simp only [hj, if_pos rfl] at h
      rcases List.mem_cons.mp h with rfl | h2
      · exact ⟨by simp, hj⟩
      · obtain ⟨h1, h2⟩ := ih h2
        exact ⟨by simp [h1], h2⟩
    · simp only [hj] at h
      obtain ⟨h1, h2⟩ := ih h
      exact ⟨by simp [h1], h2⟩

theorem mbidMatches_singleton_false {m : Str} {j : QItem} (h : j.mbid ≠ some m) :
    mbidMatches [m] j = false := by
  unfold mbidMatches
  cases hj : j.mbid with
  | none => rfl
  | some m2 =>
    simp only [List.mem_singleton, decide_eq_false_iff_not]
    intro e
    exact h (by rw [hj, e])

theorem mbidMatches_singleton_true {m : Str} {j : QItem} (h : j.mbid = some m) :
    mbidMatches [m] j = true := by
  unfold mbidMatches
  rw [h]
  simp

theorem insertUniq_mem {l : List Str} {s x : Str} :
    x ∈ insertUniq l s ↔ x ∈ l ∨ x = s := by
  unfold insertUniq
  by_cases h : s ∈ l
  · simp only [if_pos h]
    constructor
    · exact Or.inl
    · rintro (hx | rfl)
      · exact hx
      · exact h
  · simp [if_neg h]

theorem foldl_insertUniq_mem {x : Str} :
    ∀ (l acc : List Str), x ∈ l.foldl insertUniq acc ↔ x ∈ acc ∨ x ∈ l := by
  intro l
  induction l with
  | nil => simp
  | cons s rest ih =>
    intro acc
    simp only [List.foldl_cons, ih, insertUniq_mem, List.mem_cons]
    tauto

theorem pySet_mem {l : List Str} {x : Str} : x ∈ pySet l ↔ x ∈ l := by
  unfold pySet
  simp [foldl_insertUniq_mem]

theorem rejectLoop_cons_match {mbids : List Str} {i : QItem} {m : Str}
    (hm : i.mbid = some m) (hmem : m ∈ mbids) (rest : List QItem) (rej : List Str) :
    rejectLoop mbids (i :: rest) rej =
      ((rejectLoop mbids rest (insertUniq rej m)).1,
       (rejectLoop mbids rest (insertUniq rej m)).2.1,
       (rejectLoop mbids rest (insertUniq rej m)).2.2 + 1) := by
  simp [rejectLoop, hm, hmem]

theorem rejectLoop_cons_nomatch {mbids : List Str} {i : QItem}
    (h : mbidMatches mbids i = false) (rest : List QItem) (rej : List Str) :
    rejectLoop mbids (i :: rest) rej =
      (i :: (rejectLoop mbids rest rej).1,
       (rejectLoop mbids rest rej).2.1,
       (rejectLoop mbids rest rej).2.2) := by
  unfold mbidMatches at h
  cases hm : i.mbid with
  | none => simp [rejectLoop, hm]
  | some m =>
    rw [hm] at h
    simp only [decide_eq_false_iff_not] at h
    simp [rejectLoop, hm, h]

theorem rejectLoop_pending (mbids : List Str) :
    ∀ (p : List QItem) (rej : List Str),
      (rejectLoop mbids p rej).1 = p.filter (fun i => !mbidMatches mbids i) := by
  intro p
  induction p with
  | nil => intro rej; rfl
  | cons i rest ih =>
    intro rej
    cases hb : mbidMatches mbids i with
    | false => rw [rejectLoop_cons_nomatch hb]; simp [List.filter_cons, hb, ih]
    | true =>
      rcases mbidMatches_eq_true.mp hb with ⟨m, hm, hmem⟩
      rw [rejectLoop_cons_match hm hmem]
      simp [List.filter_cons, hb, ih]

theorem rejectLoop_count (mbids : List Str) :
    ∀ (p : List QItem) (rej : List Str),
      (rejectLoop mbids p rej).2.2 = (p.filter (mbidMatches mbids)).length := by
  intro p
  induction p with
  | nil => intro rej; rfl
  | cons i rest ih =>
    intro rej
    cases hb : mbidMatches mbids i with
    | false => rw [rejectLoop_cons_nomatch hb]; simp [List.filter_cons, hb, ih]
    | true =>
      rcases mbidMatches_eq_true.mp hb with ⟨m, hm, hmem⟩
      rw [rejectLoop_cons_match hm hmem]
      simp [List.filter_cons, hb, ih]

theorem rejectLoop_rejected (mbids : List Str) {x : Str} :
    ∀ (p : List QItem) (rej : List Str),
      x ∈ (rejectLoop mbids p rej).2.1 ↔
        x ∈ rej ∨ ∃ i ∈ p, i.mbid = some x ∧ x ∈ mbids := by
  intro p
  induction p with
  | nil => intro rej; simp [rejectLoop]
  | cons i rest ih =>
    intro rej
    cases hb : mbidMatches mbids i with
    | false =>
      rw [rejectLoop_cons_nomatch hb]
      simp only [ih]
      constructor
      · rintro (hx | ⟨j, hj, hjm, hjmem⟩)
        · exact Or.inl hx
        · exact Or.inr ⟨j, List.mem_cons_of_mem i hj, hjm, hjmem⟩
      · rintro (hx | ⟨j, hj, hjm, hjmem⟩)
        · exact Or.inl hx
        · rcases List.mem_cons.mp hj with rfl | hj2
          · rw [mbidMatches_eq_true.mpr ⟨x, hjm, hjmem⟩] at hb
            cases hb
          · exact Or.inr ⟨j, hj2, hjm, hjmem⟩
    | true =>
      rcases mbidMatches_eq_true.mp hb with ⟨m, hm, hmem⟩
      rw [rejectLoop_cons_match hm hmem]
      simp only [ih, insertUniq_mem]
      constructor
      · rintro ((hx | rfl) | ⟨j, hj, hjm, hjmem⟩)
        · exact Or.inl hx
        · exact Or.inr ⟨i, List.mem_cons_self i rest, hm, hmem⟩
        · exact Or.inr ⟨j, List.mem_cons_of_mem i hj, hjm, hjmem⟩
      · rintro (hx | ⟨j, hj, hjm, hjmem⟩)
        · exact Or.inl (Or.inl hx)
        · rcases List.mem_cons.mp hj with rfl | hj2
          · rw [hm] at hjm
            injection hjm with h2
            exact Or.inl (Or.inr h2.symm)
          · exact Or.inr ⟨j, hj2, hjm, hjmem⟩

/-- C1: a pending item with a unique mbid is moved to approved, payload
unchanged, count 1; approving the same mbid again returns 0 and leaves the
queue exactly as it was. -/
theorem approve_items_single (q : Queue) (m : Str) (i : QItem)
    (l1 l2 : List QItem)
    (hp : q.pending = l1 ++ i :: l2) (hm : i.mbid = some m)
    (h1 : ∀ j ∈ l1, j.mbid ≠ some m) (h2 : ∀ j ∈ l2, j.mbid ≠ some m)
    (ha : ∀ j ∈ q.approved, j.mbid ≠ some m) :
    approve_items [m] q =
      (1, { q with pending := l1 ++ l2, approved := q.approved ++ [i] }) ∧
    approve_items [m] { q with pending := l1 ++ l2, approved := q.approved ++ [i] } =
      (0, { q with pending := l1 ++ l2, approved := q.approved ++ [i] }) := by
  have hmatch : mbidMatches [m] i = true := mbidMatches_singleton_true hm
  have hs1 : approveSplit [m] l1 = (l1, []) :=
    approveSplit_nil_of_no_match (fun j hj => mbidMatches_singleton_false (h1 j hj))
  have hs2 : approveSplit [m] l2 = (l2, []) :=
    approveSplit_nil_of_no_match (fun j hj => mbidMatches_singleton_false (h2 j hj))
  constructor
  · unfold approve_items
    rw [hp, approveSplit_append]
    simp [approveSplit, hs1, hs2, hmatch]
  · unfold approve_items
    simp only []
    rw [approveSplit_append, hs1, hs2]
    simp

/-- Witness for `approve_items_single` on a one-item queue. -/
theorem approve_items_single_witness :
    approve_items ["m1".data] { pending := [itmA], approved := [], rejected := [] } =
      (1, { pending := [], approved := [itmA], rejected := [] }) ∧
    approve_items ["m1".data] { pending := [], approved := [itmA], rejected := [] } =
      (0, { pending := [], approved := [itmA], rejected := [] }) := by
  have h := approve_items_single
    { pending := [itmA], approved := [], rejected := [] } "m1".data itmA [] []
    rfl rfl (by simp) (by simp) (by simp)
  simpa using h

/-- C2 counterexample: rejecting an mbid that is not in pending does not
record it in the rejected set, contrary to the unconditional claim. -/
theorem reject_missing_mbid_not_recorded :
    "zz".data ∉ get_rejected_mbids (reject_items ["zz".data] emptyQueue).2 := by
  decide

/-- C2 (amended): after `reject_items([m])` pending holds no item with
mbid `m`, the count is the number of pending items removed, approved is
untouched, `m` is in `get_rejected_mbids()` provided some pending item
carried mbid `m`, and every string in the rejected collection is either an
old rejected mbid or the mbid of a pending item (no payload is stored). -/
theorem reject_items_spec (m : Str) (q : Queue) :
    (∀ i ∈ (reject_items [m] q).2.pending, i.mbid ≠ some m) ∧
    (reject_items [m] q).1 = (q.pending.filter (mbidMatches [m])).length ∧
    (reject_items [m] q).2.approved = q.approved ∧
    ((∃ i ∈ q.pending, i.mbid = some m) →
      m ∈ get_rejected_mbids (reject_items [m] q).2) ∧
    (∀ s ∈ (reject_items [m] q).2.rejected,
      s ∈ q.rejected ∨ ∃ i ∈ q.pending, i.mbid = some s) := by
  refine ⟨?_, ?_, rfl, ?_, ?_⟩
  · intro i hi him
    have h1 : (reject_items [m] q).2.pending =
        q.pending.filter (fun j => !mbidMatches [m] j) := rejectLoop_pending _ _ _
    rw [h1] at hi
    have h2 := List.of_mem_filter hi
    rw [mbidMatches_singleton_true him] at h2
    simp at h2
  · exact rejectLoop_count _ _ _
  · rintro ⟨i, hi, him⟩
    have h1 : m ∈ (rejectLoop [m] q.pending (pySet q.rejected)).2.1 :=
      (rejectLoop_rejected _ _ _).mpr (Or.inr ⟨i, hi, him, by simp⟩)
    exact pySet_mem.mpr h1
  · intro s hs
    have h1 := (rejectLoop_rejected [m] q.pending (pySet q.rejected)).mp hs
    rcases h1 with hx | ⟨i, hi, him, _⟩
    · exact Or.inl (pySet_mem.mp hx)
    · exact Or.inr ⟨i, hi, him⟩

/-- Witness for `reject_items_spec`: rejecting the mbid of the only
pending item does record it. -/
theorem reject_items_spec_witness :
    "m1".data ∈ get_rejected_mbids
      (reject_items ["m1".data]
        { pending := [itmA], approved := [], rejected := [] }).2 :=
  (reject_items_spec "m1".data
    { pending := [itmA], approved := [], rejected := [] }).2.2.2.1
    ⟨itmA, by simp, rfl⟩

/-- C8 counterexample: `add_pending` performs no duplicate check, so
adding an item, approving it, and adding it again puts the same mbid in
both pending and approved. -/
theorem queue_ops_break_mbid_invariant :
    ¬ ∀ ops : List QOp, MbidInvariant (runOps ops) := by
  intro h
  exact absurd
    (h [QOp.add itmA, QOp.approve ["m1".data], QOp.add itmA])
    (by decide)

/-- C8 (amended): each single lock-guarded operation preserves the
pending/approved disjointness invariant, except that `add_pending` needs
the added item's mbid to be absent from approved. -/
theorem applyOp_preserves_mbid_invariant (q : Queue) (op : QOp)
    (hq : MbidInvariant q)
    (hadd : ∀ e m, op = QOp.add e → e.mbid = some m → m ∉ approvedMbids q) :
    MbidInvariant (applyOp q op) := by
  cases op with
  | add e =>
    intro m hm
    simp only [applyOp, add_pending, pendingMbids, approvedMbids, List.filterMap_append] at hm ⊢
    rcases List.mem_append.mp hm with hold | hnew
    · exact hq m hold
    · have : e.mbid = some m := by
        rcases List.mem_filterMap.mp hnew with ⟨a, ha, hma⟩
        rcases List.mem_singleton.mp ha with rfl
        exact hma
      exact hadd e m rfl this
  | approve mbids =>
    intro m hm hcontra
    simp only [applyOp, approve_items, pendingMbids, approvedMbids] at hm hcontra
    rcases List.mem_filterMap.mp hm with ⟨i, hi, him⟩
    obtain ⟨hip, hifalse⟩ := approveSplit_mem_left hi
    rw [List.filterMap_append] at hcontra
    rcases List.mem_append.mp hcontra with hold | hnew
    · exact hq m (List.mem_filterMap.mpr ⟨i, hip, him⟩) hold
    · rcases List.mem_filterMap.mp hnew with ⟨j, hj, hjm⟩
      obtain ⟨hjp, hjtrue⟩ := approveSplit_mem_right hj
      rcases mbidMatches_eq_true.mp hjtrue with ⟨m2, hm2, hm2mem⟩
      rw [hjm] at hm2
      injection hm2 with hm2e
      subst hm2e
      have : mbidMatches mbids i = true := by
        unfold mbidMatches
        rw [him]
        simp [hm2mem]
      rw [this] at hifalse
      cases hifalse
  | reject mbids =>
    intro m hm hcontra
    simp only [applyOp, reject_items, pendingMbids, approvedMbids] at hm hcontra
    rw [rejectLoop_pending] at hm
    rcases List.mem_filterMap.mp hm with ⟨i, hi, him⟩
    have hip := List.mem_of_mem_filter hi
    exact hq m (List.mem_filterMap.mpr ⟨i, hip, him⟩) hcontra

/-- Witness for `applyOp_preserves_mbid_invariant`: adding a fresh item to
the empty queue keeps the invariant. -/
theorem applyOp_preserves_mbid_invariant_witness :
    MbidInvariant (applyOp emptyQueue (QOp.add itmA)) :=
  applyOp_preserves_mbid_invariant emptyQueue (QOp.add itmA)
    (by decide)
    (by intro e m he hm; simp [approvedMbids, emptyQueue])

/-- C5: loading the queue from a backing file whose content is not valid
JSON yields the default all-empty queue; the read path is a total
function, so no error reaches the caller. -/
theorem load_queue_corrupt (c : QueueFileContent)
    (h : ∃ e, jsonParseQueue c = Except.error e) :
    load_queue c = emptyQueue := by
  cases c with
  | blank => rfl
  | invalid => rfl
  | valid r =>
    rcases h with ⟨e, he⟩
    simp [jsonParseQueue] at he

/-- Witness for `load_queue_corrupt` at malformed content. -/
theorem load_queue_corrupt_witness :
    load_queue QueueFileContent.invalid = emptyQueue :=
  load_queue_corrupt QueueFileContent.invalid ⟨"JSONDecodeError".data, rfl⟩

/-! ## Lemmas about the wishlist encoding and parsing -/

theorem pstrip_nil : pstrip [] = [] := rfl

theorem pstrip_of_ends (c d : Char) (s : Str)
    (hc : c.isWhitespace = false) (hd : d.isWhitespace = false) :
    pstrip (c :: (s ++ [d])) = c :: (s ++ [d]) := by
  unfold pstrip
  rw [List.dropWhile_cons, hc]
  simp only [Bool.false_eq_true, if_false]
  have h2 : (c :: (s ++ [d])).reverse = d :: (s.reverse ++ [c]) := by simp
  rw [h2, List.dropWhile_cons, hd]
  simp

theorem escQ_eq_nil_iff {x : Str} : escQ x = [] ↔ x = [] := by
  cases x with
  | nil => simp [escQ]
  | cons c rest =>
    simp only [escQ]
    by_cases hc : c = '"' <;> simp [hc]

theorem escQ_head_ne_quote {x : Str} (hx : x ≠ []) :
    (escQ x).head? ≠ some '"' := by
  cases x with
  | nil => exact absurd rfl hx
  | cons c rest =>
    simp only [escQ]
    by_cases hc : c = '"'
    · simp [hc]
    · simp [hc]

theorem not_mem_escQ {x : Str} {ch : Char}
    (h : ch ∉ x) (h1 : ch ≠ '\\') (h2 : ch ≠ '"') : ch ∉ escQ x := by
  induction x with
  | nil => simp [escQ]
  | cons c rest ih =>
    have hc : ch ≠ c := fun e => h (e ▸ List.mem_cons_self c rest)
    have hrest : ch ∉ rest := fun e => h (List.mem_cons_of_mem c e)
    by_cases hq : c = '"'
    · simp [escQ, hq, ih hrest, h1, h2]
    · simp [escQ, hq, ih hrest, hc]

theorem escQ_length_le (x : Str) : x.length ≤ (escQ x).length := by
  induction x with
  | nil => simp [escQ]
  | cons c rest ih =>
    simp only [escQ]
    by_cases hc : c = '"' <;> simp [hc] <;> omega

theorem unescQ_cons_of_ne (c : Char) (l : Str) (hc : c ≠ '\\') :
    unescQ (c :: l) = c :: unescQ l := by
  cases l with
  | nil => rfl
  | cons d rest => simp [unescQ, hc]

theorem head?_append_left {α : Type} {l : List α} (r : List α) (h : l ≠ []) :
    (l ++ r).head? = l.head? := by
  cases l with
  | nil => exact absurd rfl h
  | cons c rest => rfl

theorem escQ_append_head_ne (x r : Str) (hr : r.head? ≠ some '"') :
    (escQ x ++ r).head? ≠ some '"' := by
  cases x with
  | nil => simpa [escQ] using hr
  | cons c rest =>
    rw [head?_append_left r (by simp [Ne, escQ_eq_nil_iff])]
    exact escQ_head_ne_quote (by simp)

theorem unescQ_escQ_append (x : Str) :
    ∀ r : Str, r.head? ≠ some '"' → unescQ (escQ x ++ r) = x ++ unescQ r := by
  induction x with
  | nil => intro r _; simp [escQ]
  | cons c rest ih =>
    intro r hr
    by_cases hc : c = '"'
    · subst hc
      have hline : escQ ('"' :: rest) ++ r = '\\' :: '"' :: (escQ rest ++ r) := by
        simp [escQ]
      rw [hline]
      have hstep : unescQ ('\\' :: '"' :: (escQ rest ++ r)) =
          '"' :: unescQ (escQ rest ++ r) := by
        simp [unescQ]
      rw [hstep, ih r hr]
      simp
    · have hline : escQ (c :: rest) ++ r = c :: (escQ rest ++ r) := by
        simp [escQ, hc]
      rw [hline]
      cases hm : escQ rest ++ r with
      | nil =>
        have h1 : escQ rest = [] ∧ r = [] := List.append_eq_nil.mp hm
        have h2 : rest = [] := escQ_eq_nil_iff.mp h1.1
        subst h2
        rw [h1.2]
        simp [unescQ]
      | cons d M =>
        have hd0 := escQ_append_head_ne rest r hr
        rw [hm] at hd0
        have hd : d ≠ '"' := by simpa using hd0
        have hstep : unescQ (c :: d :: M) = c :: unescQ (d :: M) := by
          simp only [unescQ]
          rw [if_neg]
          rintro ⟨e1, e2⟩
          exact hd e2
        rw [hstep, ← hm, ih r hr]
        simp

theorem splitOnce_at_first (t : Str) :
    ∀ a : Str, ¬ sepDash <:+: a → ¬ [' ', '-'] <:+ a →
      splitOnce sepDash (a ++ (sepDash ++ t)) = some (a, t) := by
  intro a
  induction a with
  | nil =>
    intro _ _
    show splitOnce sepDash (' ' :: '-' :: ' ' :: t) = some ([], t)
    have hpre : sepDash.isPrefixOf (' ' :: '-' :: ' ' :: t) = true := by
      simp [sepDash, List.isPrefixOf]
    simp [splitOnce, hpre, sepDash]
  | cons c a2 ih =>
    intro h5 h6
    have h5a : ¬ sepDash <:+: a2 := fun h => h5 (List.infix_cons h)
    have h6a : ¬ [' ', '-'] <:+ a2 := by
      rintro ⟨u, hu⟩
      exact h6 ⟨c :: u, by rw [← hu]; rfl⟩
    have hpre : sepDash.isPrefixOf (c :: (a2 ++ (sepDash ++ t))) = false := by
      rw [Bool.eq_false_iff]
      intro hcon
      have hp : sepDash <+: c :: (a2 ++ (sepDash ++ t)) :=
        List.isPrefixOf_iff_prefix.mp hcon
      have hp2 : ' ' = c ∧ ['-', ' '] <+: a2 ++ (sepDash ++ t) := by
        have := (List.cons_prefix_cons).mp hp
        exact this
      cases a2 with
      | nil =>
        simp only [List.nil_append] at hp2
        have h0 : '-' = ' ' ∧ [' '] <+: '-' :: ' ' :: t :=
          (List.cons_prefix_cons).mp hp2.2
        exact absurd h0.1 (by decide)
      | cons c2 a3 =>
        have hp3 : '-' = c2 ∧ [' '] <+: a3 ++ (sepDash ++ t) :=
          (List.cons_prefix_cons).mp hp2.2
        cases a3 with
        | nil =>
          apply h6
          have e1 : c = ' ' := hp2.1.symm
          have e2 : c2 = '-' := hp3.1.symm
          subst e1
          subst e2
          exact List.suffix_refl _
        | cons c3 a4 =>
          have hp4 : ' ' = c3 ∧ ([] : Str) <+: a4 ++ (sepDash ++ t) :=
            (List.cons_prefix_cons).mp hp3.2
          apply h5
          apply List.IsPrefix.isInfix
          rw [← hp2.1, ← hp3.1, ← hp4.1]
          show sepDash <+: ' ' :: '-' :: ' ' :: a4
          exact ⟨a4, rfl⟩
    have hrec := ih h5a h6a
    show splitOnce sepDash (c :: (a2 ++ (sepDash ++ t))) = some (c :: a2, t)
    simp [splitOnce, hpre, hrec]

theorem splitOnChar_no_sep (sep : Char) :
    ∀ (l : Str), sep ∉ l → ∀ r : Str,
      splitOnChar sep (l ++ sep :: r) = l :: splitOnChar sep r := by
  intro l
  induction l with
  | nil =>
    intro _ r
    simp [splitOnChar]
  | cons c l2 ih =>
    intro h r
    have hc : c ≠ sep := fun e => h (e ▸ List.mem_cons_self c l2)
    have h2 : sep ∉ l2 := fun e => h (List.mem_cons_of_mem c e)
    have hrec := ih h2 r
    show splitOnChar sep (c :: (l2 ++ sep :: r)) = (c :: l2) :: splitOnChar sep r
    rw [splitOnChar, if_neg hc, hrec]

theorem unescQ_escQ_sep (a t : Str) :
    unescQ (escQ a ++ (sepDash ++ escQ t)) = a ++ (sepDash ++ t) := by
  rw [unescQ_escQ_append a (sepDash ++ escQ t) (by simp [sepDash])]
  congr 1
  show unescQ (' ' :: '-' :: ' ' :: escQ t) = ' ' :: '-' :: ' ' :: t
  rw [unescQ_cons_of_ne _ _ (by decide), unescQ_cons_of_ne _ _ (by decide),
      unescQ_cons_of_ne _ _ (by decide)]
  have h0 := unescQ_escQ_append t [] (by simp)
  simp only [List.append_nil] at h0
  rw [h0]
  simp [unescQ]

theorem stripQuotes_wrapped (A : Str) : stripQuotes ('"' :: (A ++ ['"'])) = A := by
  have h1 : ['"'].isPrefixOf ('"' :: (A ++ ['"'])) = true := by
    simp [List.isPrefixOf]
  have h2 : ['"'].isSuffixOf ('"' :: (A ++ ['"'])) = true :=
    List.isSuffixOf_iff_suffix.mpr ⟨'"' :: A, rfl⟩
  unfold stripQuotes
  rw [h1, h2]
  show ((A ++ ['"'])).dropLast = A
  exact List.dropLast_concat

theorem stripPrefixA_album (R : Str) :
    stripPrefixA ('a' :: ':' :: R) = (true, R) := by
  have hp : ['a', ':'].isPrefixOf ('a' :: ':' :: R) = true := by
    simp [List.isPrefixOf]
  unfold stripPrefixA
  rw [hp]
  rfl

theorem stripPrefixA_track (R : Str) :
    stripPrefixA ('"' :: R) = (false, '"' :: R) := by
  have hp : ['a', ':'].isPrefixOf ('"' :: R) = false := by
    simp [List.isPrefixOf]
  unfold stripPrefixA
  rw [hp]
  rfl

theorem parse_line_encode (a t : Str) (b : Bool)
    (ha1 : pstrip a = a) (ht1 : pstrip t = t)
    (ha2 : ¬ sepDash <:+: a) (ha3 : ¬ [' ', '-'] <:+ a) :
    parseWishlistLine (wishlistLine a t b) =
      some { artist := a, title := t, is_album := b, raw := a ++ (sepDash ++ t) } := by
  have hunesc := unescQ_escQ_sep a t
  have hsplit := splitOnce_at_first t a ha2 ha3
  have hQ := stripQuotes_wrapped (escQ a ++ (sepDash ++ escQ t))
  cases b with
  | true =>
    have hline : wishlistLine a t true =
        'a' :: ((':' :: '"' :: (escQ a ++ (sepDash ++ escQ t))) ++ ['"']) := by
      simp [wishlistLine, List.append_assoc]
    have hstrip2 : pstrip ('a' :: ((':' :: '"' :: (escQ a ++ (sepDash ++ escQ t))) ++ ['"'])) =
        'a' :: ((':' :: '"' :: (escQ a ++ (sepDash ++ escQ t))) ++ ['"']) :=
      pstrip_of_ends _ _ _ (by decide) (by decide)
    have hA : stripPrefixA ('a' :: ((':' :: '"' :: (escQ a ++ (sepDash ++ escQ t))) ++ ['"'])) =
        (true, '"' :: ((escQ a ++ (sepDash ++ escQ t)) ++ ['"'])) :=
      stripPrefixA_album _
    rw [hline]
    simp only [parseWishlistLine]
    rw [hstrip2]
    rw [if_neg (by simp)]
    rw [hA]
    dsimp only
    rw [hQ, hunesc, hsplit]
    dsimp only
    rw [ha1, ht1]
  | false =>
    have hline : wishlistLine a t false =
        '"' :: ((escQ a ++ (sepDash ++ escQ t)) ++ ['"']) := by
      simp [wishlistLine, List.append_assoc]
    have hstrip2 : pstrip ('"' :: ((escQ a ++ (sepDash ++ escQ t)) ++ ['"'])) =
        '"' :: ((escQ a ++ (sepDash ++ escQ t)) ++ ['"']) :=
      pstrip_of_ends _ _ _ (by decide) (by decide)
    have hA : stripPrefixA ('"' :: ((escQ a ++ (sepDash ++ escQ t)) ++ ['"'])) =
        (false, '"' :: ((escQ a ++ (sepDash ++ escQ t)) ++ ['"'])) :=
      stripPrefixA_track _
    rw [hline]
    simp only [parseWishlistLine]
    rw [hstrip2]
    rw [if_neg (by simp)]
    rw [hA]
    dsimp only
    rw [hQ, hunesc, hsplit]
    dsimp only
    rw [ha1, ht1]

theorem newline_not_mem_wishlistLine (a t : Str) (b : Bool)
    (hn1 : '\n' ∉ a) (hn2 : '\n' ∉ t) : '\n' ∉ wishlistLine a t b := by
  have hea : '\n' ∉ escQ a := not_mem_escQ hn1 (by decide) (by decide)
  have het : '\n' ∉ escQ t := not_mem_escQ hn2 (by decide) (by decide)
  cases b <;> simp [wishlistLine, sepDash, hea, het]

theorem parse_encode_single (a t : Str) (b : Bool)
    (ha1 : pstrip a = a) (ht1 : pstrip t = t)
    (ha2 : ¬ sepDash <:+: a) (ha3 : ¬ [' ', '-'] <:+ a)
    (hn1 : '\n' ∉ a) (hn2 : '\n' ∉ t) :
    parse_wishlist (append_to_wishlist [] a t b) =
      [{ artist := a, title := t, is_album := b, raw := a ++ (sepDash ++ t) }] := by
  have hnl := newline_not_mem_wishlistLine a t b hn1 hn2
  have hsplitl : splitLines (wishlistLine a t b ++ '\n' :: []) =
      [wishlistLine a t b, []] := by
    have h := splitOnChar_no_sep '\n' (wishlistLine a t b) hnl []
    rw [splitLines, h]
    rfl
  show parse_wishlist ([] ++ wishlistLine a t b ++ ['\n']) = _
  simp only [parse_wishlist, List.nil_append]
  rw [show wishlistLine a t b ++ ['\n'] = wishlistLine a t b ++ '\n' :: [] from rfl, hsplitl]
  rw [List.filterMap_cons, parse_line_encode a t b ha1 ht1 ha2 ha3]
  rfl

/-- C3 (amended): appending one entry to an empty wishlist and parsing it
back yields exactly that entry, including when artist or title contains a
literal double quote, provided artist and title contain no newline, are
unchanged by whitespace stripping, and the artist neither contains the
separator `" - "` nor ends in `" -"`. -/
theorem wishlist_roundtrip (a t : Str) (b : Bool)
    (ha1 : pstrip a = a) (ht1 : pstrip t = t)
    (ha2 : ¬ sepDash <:+: a) (ha3 : ¬ [' ', '-'] <:+ a)
    (hn1 : '\n' ∉ a) (hn2 : '\n' ∉ t) :
    (parse_wishlist (append_to_wishlist [] a t b)).map
      (fun i => (i.artist, i.title, i.is_album)) = [(a, t, b)] := by
  rw [parse_encode_single a t b ha1 ht1 ha2 ha3 hn1 hn2]
  rfl

/-- Witness for `wishlist_roundtrip` at the spec's own example, an artist
containing a literal double quote. -/
theorem wishlist_roundtrip_witness :
    (parse_wishlist (append_to_wishlist []
        "Guns N\" Roses".data "Appetite".data true)).map
      (fun i => (i.artist, i.title, i.is_album)) =
      [("Guns N\" Roses".data, "Appetite".data, true)] :=
  wishlist_roundtrip "Guns N\" Roses".data "Appetite".data true
    (by decide) (by decide) (by decide) (by decide) (by decide) (by decide)

/-- C3 counterexample: for the artist `"A - B"` the reader splits at the
first `" - "`, so the round trip returns artist `"A"` and title
`"B - C"`, not the inputs. -/
theorem wishlist_roundtrip_cex :
    (parse_wishlist (append_to_wishlist [] "A - B".data "C".data true)).map
      (fun i => (i.artist, i.title, i.is_album)) =
      [("A".data, "B - C".data, true)] ∧
    ("A".data, "B - C".data, (true : Bool)) ≠ ("A - B".data, "C".data, (true : Bool)) := by
  constructor
  · decide
  · decide

/-- C7 (amended): the key under which the downloader records a completed
download is the decoded `artist - title` line (whitespace stripped, `a:`
prefix and quotes removed, escapes resolved), which always differs from
the raw encoded line as written in the file. -/
theorem download_key_decoded (a t : Str) (b : Bool)
    (ha1 : pstrip a = a) (ht1 : pstrip t = t)
    (ha2 : ¬ sepDash <:+: a) (ha3 : ¬ [' ', '-'] <:+ a)
    (hn1 : '\n' ∉ a) (hn2 : '\n' ∉ t) :
    ∃ i, parse_wishlist (append_to_wishlist [] a t b) = [i] ∧
      download_key i = a ++ (sepDash ++ t) ∧
      download_key i ≠ wishlistLine a t b := by
  refine ⟨_, parse_encode_single a t b ha1 ht1 ha2 ha3 hn1 hn2, rfl, ?_⟩
  intro hbad
  have hlen := congrArg List.length hbad
  have l1 := escQ_length_le a
  have l2 := escQ_length_le t
  cases b <;>
    simp [download_key, wishlistLine, sepDash, List.length_append] at hlen <;>
    omega

/-- Witness for `download_key_decoded`. -/
theorem download_key_decoded_witness :
    ∃ i, parse_wishlist (append_to_wishlist [] "Xx".data "Yy".data true) = [i] ∧
      download_key i = "Xx".data ++ (sepDash ++ "Yy".data) ∧
      download_key i ≠ wishlistLine "Xx".data "Yy".data true :=
  download_key_decoded "Xx".data "Yy".data true
    (by decide) (by decide) (by decide) (by decide) (by decide) (by decide)

/-- C7 counterexample: for the wishlist line `a:"X - Y"` the recorded key
is the decoded string `X - Y`, not the raw encoded line. -/
theorem download_key_not_raw_line_cex :
    append_to_wishlist [] "X".data "Y".data true = "a:\"X - Y\"".data ++ ['\n'] ∧
    parse_wishlist (append_to_wishlist [] "X".data "Y".data true) =
      [{ artist := "X".data, title := "Y".data, is_album := true, raw := "X - Y".data }] ∧
    download_key { artist := "X".data, title := "Y".data,
                   is_album := true, raw := "X - Y".data } ≠ "a:\"X - Y\"".data := by
  refine ⟨by decide, by decide, by decide⟩

/-! ## Review-API approval followed by the producer drain -/

theorem process_single_album (i : QItem) (alb : Str) (file : Str)
    (hart : i.artist ≠ []) (halb : i.album = some alb) (halbne : alb ≠ []) :
    process_approved_to_wishlist [i] file =
      (1, file ++ wishlistLine i.artist alb true ++ ['\n']) := by
  simp [process_approved_to_wishlist, halb, hart, halbne]

/-- C9: approving an item through the review API writes its wishlist line
immediately and leaves the item in the approved collection; the later
producer drain writes the same line again and clears approved, so the
file gains two identical entries for one approval. -/
theorem approve_then_drain_duplicates (q : Queue) (file : Str) (m : Str)
    (i : QItem) (alb : Str)
    (hp : q.pending = [i]) (happ : q.approved = [])
    (hm : i.mbid = some m) (hart : i.artist ≠ [])
    (halb : i.album = some alb) (halbne : alb ≠ []) :
    queue_manager_approve [m] q file =
      (1, { q with pending := [], approved := [i] },
        file ++ wishlistLine i.artist alb true ++ ['\n']) ∧
    process_approved_queue { q with pending := [], approved := [i] }
      (file ++ wishlistLine i.artist alb true ++ ['\n']) =
      (1, { q with pending := [], approved := [] },
        file ++ wishlistLine i.artist alb true ++ ['\n'] ++
          wishlistLine i.artist alb true ++ ['\n']) := by
  have hmatch : mbidMatches [m] i = true := mbidMatches_singleton_true hm
  have hw1 := process_single_album i alb file hart halb halbne
  have hw2 := process_single_album i alb
    (file ++ wishlistLine i.artist alb true ++ ['\n']) hart halb halbne
  have hsplit2 : approveSplit [m] [i] = ([], [i]) := by
    simp [approveSplit, hmatch]
  have happrove : approve_items [m] q = (1, { q with pending := [], approved := [i] }) := by
    simp only [approve_items]
    rw [hp, hsplit2, happ]
    rfl
  have hfilter : q.pending.filter (mbidMatches [m]) = [i] := by
    rw [hp]
    simp [List.filter_cons, hmatch]
  constructor
  · simp only [queue_manager_approve]
    rw [hfilter, happrove]
    dsimp only
    rw [if_pos (show (0 : Nat) < 1 by decide), hw1]
  · simp only [process_approved_queue]
    rw [if_neg (show ¬(Queue.approved { q with pending := [], approved := [i] } = []) by simp),
      hw2]

/-- Witness for `approve_then_drain_duplicates` on a one-item queue. -/
theorem approve_then_drain_duplicates_witness :
    queue_manager_approve ["m1".data]
        { pending := [itmA], approved := [], rejected := [] } [] =
      (1, { pending := [], approved := [itmA], rejected := [] },
        wishlistLine "Artist".data "Album".data true ++ ['\n']) ∧
    process_approved_queue { pending := [], approved := [itmA], rejected := [] }
        (wishlistLine "Artist".data "Album".data true ++ ['\n']) =
      (1, { pending := [], approved := [], rejected := [] },
        wishlistLine "Artist".data "Album".data true ++ ['\n'] ++
          wishlistLine "Artist".data "Album".data true ++ ['\n']) := by
  exact approve_then_drain_duplicates
    { pending := [itmA], approved := [], rejected := [] } [] "m1".data itmA
    "Album".data rfl rfl rfl (by decide) rfl (by decide)

theorem approveSplit_mem_left_of {mbids : List Str} :
    ∀ {l : List QItem} {i : QItem}, i ∈ l → mbidMatches mbids i = false →
      i ∈ (approveSplit mbids l).1 := by
  intro l
  induction l with
  | nil => intro i h; simp at h
  | cons j rest ih =>
    intro i h hf
    simp only [approveSplit]
    rcases List.mem_cons.mp h with rfl | h2
    · simp [hf]
    · by_cases hj : mbidMatches mbids j
      · simp only [hj, if_pos rfl]
        exact ih h2 hf
      · simp only [hj]
        simp only [Bool.false_eq_true, if_false]
        exact List.mem_cons_of_mem j (ih h2 hf)

theorem approveSplit_mem_right_of {mbids : List Str} :
    ∀ {l : List QItem} {i : QItem}, i ∈ l → mbidMatches mbids i = true →
      i ∈ (approveSplit mbids l).2 := by
  intro l
  induction l with
  | nil => intro i h; simp at h
  | cons j rest ih =>
    intro i h ht
    simp only [approveSplit]
    rcases List.mem_cons.mp h with rfl | h2
    · simp [ht]
    · by_cases hj : mbidMatches mbids j
      · simp only [hj, if_pos rfl]
        exact List.mem_cons_of_mem j (ih h2 ht)
      · simp only [hj]
        simp only [Bool.false_eq_true, if_false]
        exact ih h2 ht

/-- The serialisable core behind the concurrent approve/reject scenario:
each of `approve_items` and `reject_items` is a single read-modify-write
inside one exclusive `locked_queue('w')` acquisition, so a concurrent
pair executes as one of the two serial orders, and in both orders m1
ends approved and m2 ends rejected.  (Whether `fcntl.flock` actually
provides that mutual exclusion across OS processes is outside this
embedding.) -/
theorem approve_reject_serializable (q : Queue) (m1 m2 : Str) (i1 i2 : QItem)
    (h12 : m1 ≠ m2) (hi1 : i1 ∈ q.pending) (hm1 : i1.mbid = some m1)
    (hi2 : i2 ∈ q.pending) (hm2 : i2.mbid = some m2) :
    (m1 ∈ approvedMbids (reject_items [m2] (approve_items [m1] q).2).2 ∧
      m2 ∈ get_rejected_mbids (reject_items [m2] (approve_items [m1] q).2).2) ∧
    (m1 ∈ approvedMbids (approve_items [m1] (reject_items [m2] q).2).2 ∧
      m2 ∈ get_rejected_mbids (approve_items [m1] (reject_items [m2] q).2).2) := by
  have hmm1 : mbidMatches [m1] i1 = true := mbidMatches_singleton_true hm1
  have hmm2 : mbidMatches [m2] i2 = true := mbidMatches_singleton_true hm2
  have hx1 : mbidMatches [m2] i1 = false := by
    apply mbidMatches_singleton_false
    rw [hm1]
    intro e
    exact h12 (Option.some.inj e)
  have hx2 : mbidMatches [m1] i2 = false := by
    apply mbidMatches_singleton_false
    rw [hm2]
    intro e
    exact h12 (Option.some.inj e).symm
  constructor
  · constructor
    · show m1 ∈ approvedMbids (approve_items [m1] q).2
      simp only [approve_items, approvedMbids, List.filterMap_append]
      apply List.mem_append.mpr
      right
      exact List.mem_filterMap.mpr ⟨i1, approveSplit_mem_right_of hi1 hmm1, hm1⟩
    · apply pySet_mem.mpr
      apply (rejectLoop_rejected [m2] _ _).mpr
      right
      refine ⟨i2, ?_, hm2, by simp⟩
      show i2 ∈ (approve_items [m1] q).2.pending
      exact approveSplit_mem_left_of hi2 hx2
  · constructor
    · simp only [approve_items, approvedMbids, List.filterMap_append]
      apply List.mem_append.mpr
      right
      refine List.mem_filterMap.mpr ⟨i1, ?_, hm1⟩
      apply approveSplit_mem_right_of _ hmm1
      show i1 ∈ (reject_items [m2] q).2.pending
      have hpend : (reject_items [m2] q).2.pending =
          q.pending.filter (fun i => !mbidMatches [m2] i) := rejectLoop_pending _ _ _
      rw [hpend]
      exact List.mem_filter.mpr ⟨hi1, by simp [hx1]⟩
    · show m2 ∈ get_rejected_mbids (approve_items [m1] (reject_items [m2] q).2).2
      have happ : (approve_items [m1] (reject_items [m2] q).2).2.rejected =
          (reject_items [m2] q).2.rejected := rfl
      unfold get_rejected_mbids
      rw [happ]
      apply pySet_mem.mpr
      apply (rejectLoop_rejected [m2] _ _).mpr
      right
      exact ⟨i2, hi2, hm2, by simp⟩

/-! ## Lemmas about the album match scorer -/

theorem scoreDir_eq_spec (artist album : Str) (resp : Response) (d : Str)
    (audio : List SFile) :
    scoreDir artist album resp d audio =
      specDirScore audio.length (audio.filter isFlacFile).length
        (isSubstr (lowerStr artist) (lowerStr d))
        (isSubstr (lowerStr album) (lowerStr d))
        (decide (1000000 < resp.uploadSpeed)) resp.hasFreeUploadSlot := by
  simp only [scoreDir, specDirScore, decide_eq_true_eq]
  split_ifs <;> omega

theorem scoreDir_lb (artist album : Str) (resp : Response) (d : Str)
    (audio : List SFile) :
    audio.length * 10 ≤ scoreDir artist album resp d audio := by
  simp only [scoreDir]
  split_ifs <;> omega

theorem mem_dirCandidates {artist album : Str} {minFiles : Nat} {r : Response} :
    ∀ {gs : List (Str × List SFile)} {m : MatchCand},
      m ∈ dirCandidates artist album minFiles r gs →
      minFiles ≤ m.files.length ∧
        m.score = scoreDir artist album r m.directory m.files := by
  intro gs
  induction gs with
  | nil => intro m h; simp [dirCandidates] at h
  | cons g rest ih =>
    intro m h
    simp only [dirCandidates] at h
    by_cases hc : minFiles ≤ (g.2.filter isAudioAlbum).length
    · rw [if_pos hc] at h
      rcases List.mem_cons.mp h with rfl | h2
      · exact ⟨hc, rfl⟩
      · exact ih h2
    · rw [if_neg hc] at h
      exact ih h

theorem mem_survivors {artist album : Str} {minFiles : Nat} :
    ∀ {rs : List Response} {m : MatchCand},
      m ∈ survivors artist album minFiles rs →
      ∃ r ∈ rs, minFiles ≤ m.files.length ∧
        m.score = scoreDir artist album r m.directory m.files := by
  intro rs
  induction rs with
  | nil => intro m h; simp [survivors] at h
  | cons r rest ih =>
    intro m h
    simp only [survivors] at h
    rcases List.mem_append.mp h with h1 | h2
    · by_cases hf : r.files = []
      · rw [if_pos hf] at h1
        simp at h1
      · rw [if_neg hf] at h1
        obtain ⟨hlen, hscore⟩ := mem_dirCandidates h1
        exact ⟨r, List.mem_cons_self r rest, hlen, hscore⟩
    · obtain ⟨r2, hr2, hrest⟩ := ih h2
      exact ⟨r2, List.mem_cons_of_mem r hr2, hrest⟩

theorem pickLoop_some_stays :
    ∀ (ms : List MatchCand) (a : MatchCand) (bs : Nat),
      ∃ m, (pickLoop (some a) bs ms).1 = some m := by
  intro ms
  induction ms with
  | nil => intro a bs; exact ⟨a, rfl⟩
  | cons x rest ih =>
    intro a bs
    simp only [pickLoop]
    by_cases h : bs < x.score
    · rw [if_pos h]; exact ih x x.score
    · rw [if_neg h]; exact ih a bs

theorem pickLoop_some_of_exists :
    ∀ (ms : List MatchCand) (best : Option MatchCand) (bs : Nat),
      (∃ x ∈ ms, bs < x.score) → ∃ m, (pickLoop best bs ms).1 = some m := by
  intro ms
  induction ms with
  | nil =>
    intro best bs h
    simp at h
  | cons x rest ih =>
    intro best bs h
    simp only [pickLoop]
    by_cases hx : bs < x.score
    · rw [if_pos hx]
      exact pickLoop_some_stays rest x x.score
    · rw [if_neg hx]
      rcases h with ⟨y, hy, hby⟩
      rcases List.mem_cons.mp hy with rfl | hy2
      · exact absurd hby hx
      · exact ih best bs ⟨y, hy2, hby⟩

theorem pickLoop_charact :
    ∀ (ms : List MatchCand) (best : Option MatchCand) (bs : Nat) (m : MatchCand),
      (pickLoop best bs ms).1 = some m →
      (best = some m ∧ ∀ x ∈ ms, x.score ≤ bs) ∨
      (∃ l1 l2, ms = l1 ++ m :: l2 ∧ (∀ x ∈ l1, x.score < m.score) ∧
        bs < m.score ∧ (∀ x ∈ l2, x.score ≤ m.score)) := by
  intro ms
  induction ms with
  | nil =>
    intro best bs m h
    left
    exact ⟨h, by simp⟩
  | cons x rest ih =>
    intro best bs m h
    simp only [pickLoop] at h
    by_cases hx : bs < x.score
    · rw [if_pos hx] at h
      rcases ih (some x) x.score m h with ⟨he, hall⟩ | ⟨l1, l2, heq, hl1, hbs, hl2⟩
      · right
        injection he with he2
        subst he2
        exact ⟨[], rest, by simp, by simp, hx, hall⟩
      · right
        refine ⟨x :: l1, l2, by rw [heq]; rfl, ?_, Nat.lt_trans hx hbs, hl2⟩
        intro y hy
        rcases List.mem_cons.mp hy with rfl | hy2
        · exact hbs
        · exact hl1 y hy2
    · rw [if_neg hx] at h
      rcases ih best bs m h with ⟨he, hall⟩ | ⟨l1, l2, heq, hl1, hbs, hl2⟩
      · left
        refine ⟨he, ?_⟩
        intro y hy
        rcases List.mem_cons.mp hy with rfl | hy2
        · exact Nat.le_of_not_lt hx
        · exact hall y hy2
      · right
        refine ⟨x :: l1, l2, by rw [heq]; rfl, ?_, hbs, hl2⟩
        intro y hy
        rcases List.mem_cons.mp hy with rfl | hy2
        · exact Nat.lt_of_le_of_lt (Nat.le_of_not_lt hx) hbs
        · exact hl1 y hy2

/-- C6 (amended): when the album scorer returns a match, it is the first
surviving directory in evaluation order attaining the maximum score:
every earlier survivor scores strictly less, every later one at most as
much (the strict `score > best_score` update keeps the earlier tie). -/
theorem search_album_pick_first_max (artist album : Str) (minFiles : Nat)
    (rs : List Response) (m : MatchCand)
    (h : search_album_pick artist album minFiles rs = some m) :
    ∃ l1 l2, survivors artist album minFiles rs = l1 ++ m :: l2 ∧
      (∀ x ∈ l1, x.score < m.score) ∧ (∀ x ∈ l2, x.score ≤ m.score) := by
  rcases pickLoop_charact (survivors artist album minFiles rs) none 0 m h with
    ⟨he, _⟩ | ⟨l1, l2, heq, h1, _, h2⟩
  · exact Option.noConfusion he
  · exact ⟨l1, l2, heq, h1, h2⟩

/-- Witness for `search_album_pick_first_max` on the two-way tie. -/
theorem search_album_pick_first_max_witness :
    ∃ l1 l2, survivors "zz".data "qq".data 1 [tieResp1, tieResp2] =
        l1 ++ tieCand1 :: l2 ∧
      (∀ x ∈ l1, x.score < tieCand1.score) ∧
      (∀ x ∈ l2, x.score ≤ tieCand1.score) :=
  search_album_pick_first_max "zz".data "qq".data 1 [tieResp1, tieResp2]
    tieCand1 (by decide)

/-- C6 counterexample: two surviving directories tie at score 10; the
scorer returns the first evaluated (`d1`), not the last (`d2`). -/
theorem tie_selects_first_cex :
    survivors "zz".data "qq".data 1 [tieResp1, tieResp2] = [tieCand1, tieCand2] ∧
    tieCand1.score = tieCand2.score ∧
    tieCand1.directory ≠ tieCand2.directory ∧
    search_album_pick "zz".data "qq".data 1 [tieResp1, tieResp2] = some tieCand1 := by
  refine ⟨by decide, by decide, by decide, by decide⟩

/-- C4 (amended): every surviving directory is scored exactly by the
spec formula `10·audio + 5·flac + 50·artistIn + 50·titleIn +
20·fastUpload + 30·freeSlot`; provided `minAudioFiles ≥ 1` and at least
one directory survives, the scorer returns a survivor achieving the
maximum score across all responses; and on the concrete target
`("Radiohead", "OK Computer", 3)` it selects the 175-point FLAC
directory over the 30-point unrelated MP3 directory. -/
theorem search_album_scoring (artist album : Str) (minFiles : Nat)
    (rs : List Response) :
    (∀ m ∈ survivors artist album minFiles rs,
      ∃ r ∈ rs, minFiles ≤ m.files.length ∧
        m.score = specDirScore m.files.length (m.files.filter isFlacFile).length
          (isSubstr (lowerStr artist) (lowerStr m.directory))
          (isSubstr (lowerStr album) (lowerStr m.directory))
          (decide (1000000 < r.uploadSpeed)) r.hasFreeUploadSlot) ∧
    (1 ≤ minFiles → ∀ m0 ∈ survivors artist album minFiles rs,
      ∃ m, search_album_pick artist album minFiles rs = some m ∧
        (∃ l1 l2, survivors artist album minFiles rs = l1 ++ m :: l2) ∧
        (∀ x ∈ survivors artist album minFiles rs, x.score ≤ m.score)) ∧
    (search_album_pick "Radiohead".data "OK Computer".data 3 [radResp1, radResp2] =
        some radBest ∧
      radBest.score = 175 ∧
      radBest.directory = "Music\\Radiohead OK Computer".data) := by
  refine ⟨?_, ?_, by decide, rfl, rfl⟩
  · intro m hm
    obtain ⟨r, hr, hlen, hscore⟩ := mem_survivors hm
    refine ⟨r, hr, hlen, ?_⟩
    rw [hscore]
    exact scoreDir_eq_spec artist album r m.directory m.files
  · intro hmf m0 hm0
    obtain ⟨r, hr, hlen, hscore⟩ := mem_survivors hm0
    have hpos : 0 < m0.score := by
      have hlb := scoreDir_lb artist album r m0.directory m0.files
      rw [← hscore] at hlb
      have := Nat.mul_le_mul_right 10 hlen
      omega
    obtain ⟨m, hm⟩ := pickLoop_some_of_exists
      (survivors artist album minFiles rs) none 0 ⟨m0, hm0, hpos⟩
    refine ⟨m, hm, ?_⟩
    rcases pickLoop_charact (survivors artist album minFiles rs) none 0 m hm with
      ⟨he, _⟩ | ⟨l1, l2, heq, h1, _, h2⟩
    · exact Option.noConfusion he
    · refine ⟨⟨l1, l2, heq⟩, ?_⟩
      intro x hx
      rw [heq] at hx
      rcases List.mem_append.mp hx with hx1 | hx2
      · exact Nat.le_of_lt (h1 x hx1)
      · rcases List.mem_cons.mp hx2 with rfl | hx3
        · exact Nat.le_refl _
        · exact h2 x hx3

/-- Witness for `search_album_scoring`: on the Radiohead instance the
returned match dominates both survivors. -/
theorem search_album_scoring_witness :
    ∃ m, search_album_pick "Radiohead".data "OK Computer".data 3
        [radResp1, radResp2] = some m ∧
      (∃ l1 l2, survivors "Radiohead".data "OK Computer".data 3
          [radResp1, radResp2] = l1 ++ m :: l2) ∧
      (∀ x ∈ survivors "Radiohead".data "OK Computer".data 3
          [radResp1, radResp2], x.score ≤ m.score) :=
  (search_album_scoring "Radiohead".data "OK Computer".data 3
      [radResp1, radResp2]).2.1 (by decide) radBest (by decide)

/-- C4 counterexample: with `minAudioFiles = 0` a directory with zero
qualifying audio files survives with score 0, yet the scorer returns
none instead of a maximum-score directory. -/
theorem zero_minfiles_pick_cex :
    survivors "zz".data "qq".data 0 [zeroResp] = [zeroCand] ∧
    search_album_pick "zz".data "qq".data 0 [zeroResp] = none := by
  refine ⟨by decide, by decide⟩

end Resonance
